import Mathlib

set_option maxRecDepth 100000

/-!
# Verification of `src/common/crypto.c` (cryptographic facade)

A shallow embedding, in Lean 4, of the byte-level algorithms of the
crypto facade: SHA-1 (needed by the S2K and KDF routines), RFC 2440
iterated-salted S2K, the hybrid RSA/AES-CTR envelope, DH public-value
validation, rejection-sampling random integers, base64/base32 decoding,
fingerprint syntax checking, IV-prefixed envelope decryption and the
one-time global initialization flag.

Bytes are modelled as `Nat` (values `< 256` where it matters); buffers
as `List Nat`; 32-bit machine arithmetic is `Nat` reduced `% 2^32`
wherever C would overflow.  Fallible C functions returning `-1` (or
hitting a fatal `tor_assert`, or performing an out-of-bounds access)
are modelled as `Option`-returning functions producing `none`; such
spots are marked in comments.  External primitives (OpenSSL RSA and the
AES-CTR keystream, the OS entropy source) are parameters of the
embedding, constrained only by their documented contracts.

The file is organised as definitions first, then theorems.
-/

namespace Crypto

/-! ## Definitions: 32-bit helpers and SHA-1

SHA-1 is the fixed hash of the facade (`crypto_digest`); we implement
it concretely (FIPS 180-1) so that the S2K scenario of the spec can be
evaluated inside Lean. -/

/-- Reduce to a 32-bit machine word. -/
def w32 (n : Nat) : Nat := n % 4294967296

/-- 32-bit left rotation by `s` bits. -/
def rotl (s n : Nat) : Nat := w32 ((n <<< s) ||| (n >>> (32 - s)))

/-- Big-endian byte rendering of `n`, exactly `k` bytes. -/
def toBytesBE : Nat → Nat → List Nat
  | 0, _ => []
  | k + 1, n => toBytesBE k (n / 256) ++ [n % 256]

/-- Interpret a big-endian byte string as a natural number
(the behaviour of OpenSSL's `BN_bin2bn`). -/
def bytesBEToNat (l : List Nat) : Nat := l.foldl (fun acc b => acc * 256 + b) 0

/-- Pack bytes into big-endian 32-bit words, four at a time. -/
def bytesToWords : List Nat → List Nat
  | a :: b :: c :: d :: rest => (((a * 256 + b) * 256 + c) * 256 + d) :: bytesToWords rest
  | _ => []

/-- SHA-1 message padding: append `0x80`, zeros, and the 64-bit
big-endian bit length, reaching a multiple of 64 bytes. -/
def sha1Pad (msg : List Nat) : List Nat :=
  msg ++ 128 :: List.replicate ((119 - msg.length % 64) % 64) 0
      ++ toBytesBE 8 (8 * msg.length)

/-- The SHA-1 round function `f_t`. -/
def sha1F (t b c d : Nat) : Nat :=
  if t < 20 then (b &&& c) ||| ((4294967295 ^^^ b) &&& d)
  else if t < 40 then b ^^^ c ^^^ d
  else if t < 60 then (b &&& c) ||| (b &&& d) ||| (c &&& d)
  else b ^^^ c ^^^ d

/-- The SHA-1 round constant `K_t`. -/
def sha1K (t : Nat) : Nat :=
  if t < 20 then 1518500249
  else if t < 40 then 1859775393
  else if t < 60 then 2400959708
  else 3395469782

/-- Extend a 16-word block schedule by `k` further words
(`W_i = rotl 1 (W_{i-3} ^ W_{i-8} ^ W_{i-14} ^ W_{i-16})`). -/
def sha1Extend : Nat → List Nat → List Nat
  | 0, w => w
  | k + 1, w =>
      sha1Extend k (w ++ [rotl 1 (w.getD (w.length - 3) 0 ^^^ w.getD (w.length - 8) 0
                                  ^^^ w.getD (w.length - 14) 0 ^^^ w.getD (w.length - 16) 0)])

/-- The five-word SHA-1 chaining state. -/
structure Sha1State where
  h0 : Nat
  h1 : Nat
  h2 : Nat
  h3 : Nat
  h4 : Nat
deriving DecidableEq

/-- One SHA-1 round step on the working variables `(a,b,c,d,e)`. -/
def sha1Step (st : Nat × Nat × Nat × Nat × Nat) (t wt : Nat) :
    Nat × Nat × Nat × Nat × Nat :=
  match st with
  | (a, b, c, d, e) =>
      (w32 (rotl 5 a + sha1F t b c d + e + sha1K t + wt), a, rotl 30 b, c, d)

/-- Compress one 64-byte block into the chaining state. -/
def sha1Compress (h : Sha1State) (block : List Nat) : Sha1State :=
  let w := sha1Extend 64 (bytesToWords block)
  let fin := (List.range 80).foldl (fun st t => sha1Step st t (w.getD t 0))
    (h.h0, h.h1, h.h2, h.h3, h.h4)
  match fin with
  | (a, b, c, d, e) =>
      ⟨w32 (h.h0 + a), w32 (h.h1 + b), w32 (h.h2 + c), w32 (h.h3 + d), w32 (h.h4 + e)⟩

/-- Fold the compression function over `k` consecutive 64-byte blocks. -/
def sha1Blocks : Nat → Sha1State → List Nat → Sha1State
  | 0, h, _ => h
  | k + 1, h, bytes => sha1Blocks k (sha1Compress h (bytes.take 64)) (bytes.drop 64)

/-- The SHA-1 initial chaining state. -/
def sha1Init : Sha1State :=
  ⟨1732584193, 4023233417, 2562383102, 271733878, 3285377520⟩

/-- SHA-1 of a byte string, as its 20-byte digest
(the embedding of `crypto_digest`). -/
def sha1 (msg : List Nat) : List Nat :=
  let p := sha1Pad msg
  let h := sha1Blocks (p.length / 64) sha1Init p
  toBytesBE 4 h.h0 ++ toBytesBE 4 h.h1 ++ toBytesBE 4 h.h2
    ++ toBytesBE 4 h.h3 ++ toBytesBE 4 h.h4

/-! ## Definitions: incremental digest objects and S2K (`secret_to_key`)

`crypto_digest_env_t` wraps an incremental SHA-1 context;
`crypto_digest_add_bytes` feeds bytes and `crypto_digest_get_digest`
finalizes (non-destructively) emitting a prefix of the digest.  We
model the context by the list of bytes absorbed so far. -/

/-- The incremental digest context, modelled as the absorbed bytes. -/
abbrev crypto_digest_env := List Nat

/-- `crypto_digest_add_bytes`: absorb `data` into the context. -/
def crypto_digest_add_bytes (d : crypto_digest_env) (data : List Nat) :
    crypto_digest_env := d ++ data

/-- `crypto_digest_get_digest`: finalize a copy of the context and emit
the first `out_len` bytes of the digest. -/
def crypto_digest_get_digest (d : crypto_digest_env) (out_len : Nat) : List Nat :=
  (sha1 d).take out_len

/-- The `while (count)` loop of `secret_to_key`: absorb `tmp` whole
while at least `tmp.length` bytes remain to be absorbed, then absorb
the needed prefix.  (If `tmp` were empty the C loop would never
terminate; that cannot happen since `tmp` always starts with the
8-byte salt.) -/
def s2kLoop (tmp : List Nat) (count : Nat) (d : crypto_digest_env) : crypto_digest_env :=
  if h0 : count = 0 then d
  else if h1 : tmp.length ≤ count then
    if h2 : tmp.length = 0 then d
    else s2kLoop tmp (count - tmp.length) (crypto_digest_add_bytes d tmp)
  else crypto_digest_add_bytes d (tmp.take count)
termination_by count
decreasing_by
  exact Nat.sub_lt (Nat.pos_of_ne_zero h0) (Nat.pos_of_ne_zero h2)

/-- Embedding of `secret_to_key` (RFC 2440 iterated-salted S2K): the
9-byte `s2k_specifier` is 8 salt bytes and a count byte `c`;
`count = (16 + (c & 15)) << ((c >> 4) + 6)` bytes of `salt ∥ secret`
are absorbed (repeating as needed), and the first `key_out_len` bytes
of the digest are emitted. -/
def secret_to_key (key_out_len : Nat) (secret : List Nat)
    (s2k_specifier : List Nat) : List Nat :=
  let c := s2k_specifier.getD 8 0
  let count := (16 + (c &&& 15)) <<< ((c >>> 4) + 6)
  let tmp := s2k_specifier.take 8 ++ secret
  crypto_digest_get_digest (s2kLoop tmp count []) key_out_len

/-- The first `count` bytes of the infinite repetition of `input`
(the spec's description of what S2K absorbs). -/
def repeatTake (input : List Nat) (count : Nat) : List Nat :=
  (List.range count).map (fun i => input.getD (i % input.length) 0)

/-! ## Definitions: Diffie-Hellman validation and KDF -/

/-- The fixed DH modulus: the 1024-bit safe prime of RFC 2409 section
6.2, as set up by `init_dh_param`. -/
def dh_param_p : Nat :=
  0xFFFFFFFFFFFFFFFFC90FDAA22168C234C4C6628B80DC1CD129024E088A67CC74020BBEA63B139B22514A08798E3404DDEF9519B3CD3A431B302B0A6DF25F14374FE1356D6D51C245E485B576625E7EC6F44C42E9A637ED6B0BFF5CB6F406B7EDEE386BFB5A899FA5AE9F24117C4B1FE649286651ECE65381FFFFFFFFFFFFFFFF

/-- Embedding of `tor_check_dh_key`: reject `bn ≤ 1` and
`bn ≥ p - 1`; accept the rest (`true` stands for the C return 0). -/
def tor_check_dh_key (bn : Nat) : Bool :=
  if bn ≤ 1 then false
  else if dh_param_p - 1 ≤ bn then false
  else true

/-- Embedding of `crypto_expand_key_material`: emit the first
`key_out_len` bytes of `H(K ∥ 0) ∥ H(K ∥ 1) ∥ …`.  The C
`tor_assert(key_out_len <= DIGEST_LEN*256)` (a fatal abort) is
modelled as `none`; the counter byte is truncated to a char. -/
def crypto_expand_key_material (key_in : List Nat) (key_out_len : Nat) :
    Option (List Nat) :=
  if key_out_len ≤ 20 * 256 then
    some ((((List.range ((key_out_len + 19) / 20)).map
      (fun i => sha1 (key_in ++ [i % 256]))).join).take key_out_len)
  else none

/-- Embedding of `crypto_dh_compute_secret`.  `dhSecret` abstracts
`DH_compute_key` (mapping the peer's public value to the shared-secret
bytes, or failing); the peer bytes are parsed big-endian, validated by
`tor_check_dh_key`, and the shared secret is expanded by the KDF.  The
`tor_assert(secret_bytes_out/DIGEST_LEN <= 255)` abort is `none`. -/
def crypto_dh_compute_secret (dhSecret : Nat → Option (List Nat))
    (pubkey : List Nat) (secret_bytes_out : Nat) : Option (List Nat) :=
  if secret_bytes_out / 20 > 255 then none
  else
    let pubkey_bn := bytesBEToNat pubkey
    if tor_check_dh_key pubkey_bn then
      match dhSecret pubkey_bn with
      | none => none
      | some secret_tmp => crypto_expand_key_material secret_tmp secret_bytes_out
    else none

/-! ## Definitions: rejection-sampling random integers -/

/-- The C `UINT_MAX` (32-bit unsigned int). -/
def UINT_MAX : Nat := 4294967295

/-- The rejection cutoff of `crypto_rand_int`:
`UINT_MAX - (UINT_MAX % max)`. -/
def crypto_rand_int_cutoff (max : Nat) : Nat := UINT_MAX - UINT_MAX % max

/-- Embedding of `crypto_rand_int`: `draws` is the stream of full-width
values produced by `crypto_rand`; the loop keeps drawing until a draw
is below the cutoff and returns it reduced `% max`.  The hypothesis
supplies termination (the C loop spins forever otherwise). -/
def crypto_rand_int (max : Nat) (draws : Nat → Nat)
    (h : ∃ i, draws i < crypto_rand_int_cutoff max) : Nat :=
  draws (Nat.find h) % max

/-! ## Definitions: base64 decoding -/

/-- The internal 256-entry table of `base64_decode`: values 0..63 are
6-bit digits, 64 (`SP`) is skipped whitespace, 65 (`PAD`) ends the
input, 255 (`X`) is invalid. -/
def base64_decode_table : List Nat :=
  [255, 255, 255, 255, 255, 255, 255, 255, 255, 64, 64, 64, 255, 64, 255, 255,
   255, 255, 255, 255, 255, 255, 255, 255, 255, 255, 255, 255, 255, 255, 255, 255,
   64, 255, 255, 255, 255, 255, 255, 255, 255, 255, 255, 62, 255, 255, 255, 63,
   52, 53, 54, 55, 56, 57, 58, 59, 60, 61, 255, 255, 255, 65, 255, 255,
   255, 0, 1, 2, 3, 4, 5, 6, 7, 8, 9, 10, 11, 12, 13, 14,
   15, 16, 17, 18, 19, 20, 21, 22, 23, 24, 25, 255, 255, 255, 255, 255,
   255, 26, 27, 28, 29, 30, 31, 32, 33, 34, 35, 36, 37, 38, 39, 40,
   41, 42, 43, 44, 45, 46, 47, 48, 49, 50, 51, 255, 255, 255, 255, 255,
   255, 255, 255, 255, 255, 255, 255, 255, 255, 255, 255, 255, 255, 255, 255, 255,
   255, 255, 255, 255, 255, 255, 255, 255, 255, 255, 255, 255, 255, 255, 255, 255,
   255, 255, 255, 255, 255, 255, 255, 255, 255, 255, 255, 255, 255, 255, 255, 255,
   255, 255, 255, 255, 255, 255, 255, 255, 255, 255, 255, 255, 255, 255, 255, 255,
   255, 255, 255, 255, 255, 255, 255, 255, 255, 255, 255, 255, 255, 255, 255, 255,
   255, 255, 255, 255, 255, 255, 255, 255, 255, 255, 255, 255, 255, 255, 255, 255,
   255, 255, 255, 255, 255, 255, 255, 255, 255, 255, 255, 255, 255, 255, 255, 255,
   255, 255, 255, 255, 255, 255, 255, 255, 255, 255, 255, 255, 255, 255, 255, 255]

/-- End-of-input handling of `base64_decode`: 0 leftover 6-bit groups
emit nothing, 1 is an error, 2 emit one byte (top 8 of 12 bits), 3
emit two bytes (top 16 of 18 bits; the second write is a char store,
hence the `% 256`). -/
def b64Finish (n n_idx : Nat) (acc : List Nat) : Option (List Nat) :=
  match n_idx with
  | 1 => none
  | 2 => some (acc ++ [n >>> 4])
  | 3 => some (acc ++ [n >>> 10, (n >>> 2) % 256])
  | _ => some acc

/-- The scanning loop of `base64_decode`: accumulate 6-bit values into
`n`, flush three bytes per group of four; whitespace is skipped, an
invalid byte fails, a pad character ends the input. -/
def b64Loop : List Nat → Nat → Nat → List Nat → Option (List Nat)
  | [], n, n_idx, acc => b64Finish n n_idx acc
  | c :: rest, n, n_idx, acc =>
      let v := base64_decode_table.getD c 255
      if v = 255 then none
      else if v = 64 then b64Loop rest n n_idx acc
      else if v = 65 then b64Finish n n_idx acc
      else
        let n2 := (n <<< 6) ||| v
        if n_idx + 1 = 4 then
          b64Loop rest 0 0 (acc ++ [n2 >>> 16, (n2 >>> 8) &&& 255, n2 &&& 255])
        else b64Loop rest n2 (n_idx + 1) acc

/-- Embedding of `base64_decode` (the non-OpenSSL branch): the initial
conservative capacity check, then the scanning loop. -/
def base64_decode (destlen : Nat) (src : List Nat) : Option (List Nat) :=
  if destlen < src.length * 3 / 4 then none
  else b64Loop src 0 0 []

/-! ## Definitions: base32 decoding -/

/-- The per-character conversion of `base32_decode`: lowercase letters,
digits 2..7, and uppercase letters map to 5-bit values; anything else
is rejected. -/
def base32_char_val (c : Nat) : Option Nat :=
  if 0x60 < c ∧ c < 0x7B then some (c - 0x61)
  else if 0x31 < c ∧ c < 0x38 then some (c - 0x18)
  else if 0x40 < c ∧ c < 0x5B then some (c - 0x41)
  else none

/-- First pass of `base32_decode`: convert every character, failing on
the first invalid one. -/
def base32_vals : List Nat → Option (List Nat)
  | [] => some []
  | c :: rest =>
      match base32_char_val c with
      | none => none
      | some v =>
          match base32_vals rest with
          | none => none
          | some vs => some (v :: vs)

/-- Second pass of `base32_decode`: assemble output bytes from the
5-bit values, by the five `bit % 40` cases (char stores, hence
`% 256`). -/
def base32_assemble (tmp : List Nat) (nbits : Nat) : List Nat :=
  (List.range (nbits / 8)).map (fun i =>
    let bit := i * 8
    match bit % 40 with
    | 0 => ((tmp.getD (bit / 5) 0) <<< 3 + (tmp.getD (bit / 5 + 1) 0) >>> 2) % 256
    | 8 => ((tmp.getD (bit / 5) 0) <<< 6 + (tmp.getD (bit / 5 + 1) 0) <<< 1
            + (tmp.getD (bit / 5 + 2) 0) >>> 4) % 256
    | 16 => ((tmp.getD (bit / 5) 0) <<< 4 + (tmp.getD (bit / 5 + 1) 0) >>> 1) % 256
    | 24 => ((tmp.getD (bit / 5) 0) <<< 7 + (tmp.getD (bit / 5 + 1) 0) <<< 2
            + (tmp.getD (bit / 5 + 2) 0) >>> 3) % 256
    | _ => ((tmp.getD (bit / 5) 0) <<< 5 + (tmp.getD (bit / 5 + 1) 0)) % 256)

/-- Embedding of `base32_decode`.  The two `tor_assert`s (input bit
count divisible by 8, enough room in `dest`) are fatal aborts, modelled
as `none`; a successful run returns the assembled bytes (C returns 0
and fills `dest`). -/
def base32_decode (destlen : Nat) (src : List Nat) : Option (List Nat) :=
  let nbits := src.length * 5
  if nbits % 8 ≠ 0 then none
  else if destlen < nbits / 8 then none
  else
    match base32_vals src with
    | none => none
    | some tmp => some (base32_assemble tmp nbits)

/-! ## Definitions: fingerprint syntax -/

/-- Modelled from the spec: `TOR_ISSPACE` lives in `compat.h`, which is
not part of this repository snapshot; per the spec, whitespace is
space, TAB, LF, VT, FF, CR. -/
def TOR_ISSPACE (c : Nat) : Bool :=
  decide (c = 32 ∨ c = 9 ∨ c = 10 ∨ c = 11 ∨ c = 12 ∨ c = 13)

/-- Modelled from the spec: `TOR_ISXDIGIT` lives in `compat.h`, which
is not part of this repository snapshot; per the spec, fingerprint
digit positions hold uppercase hexadecimal digits (`0`-`9`, `A`-`F`). -/
def TOR_ISXDIGIT (c : Nat) : Bool :=
  decide ((48 ≤ c ∧ c ≤ 57) ∨ (65 ≤ c ∧ c ≤ 70))

/-- The `FINGERPRINT_LEN` constant (40 hex digits in 10 groups of 4
separated by 9 spaces). -/
def FINGERPRINT_LEN : Nat := 49

/-- Embedding of the fingerprint format check
(`crypto_pk_check_fingerprint_syntax` in the source; renamed here).
The input is the NUL-terminated C string, modelled as its byte list
(no interior NULs); reading at or past the end yields the
terminator `0`. -/
def crypto_pk_check_fingerprint_ok (s : List Nat) : Bool :=
  ((List.range FINGERPRINT_LEN).all (fun i =>
      if i % 5 = 4 then TOR_ISSPACE (s.getD i 0) else TOR_ISXDIGIT (s.getD i 0)))
  && decide (s.getD FINGERPRINT_LEN 0 = 0)

/-- A syntactically well-formed fingerprint sample (ten groups of four
uppercase hex digits separated by single spaces). -/
def fpSample : List Nat :=
  [65, 65, 65, 65, 32, 66, 66, 66, 66, 32, 67, 67, 67, 67, 32, 68, 68, 68, 68, 32,
   48, 49, 50, 51, 32, 52, 53, 54, 55, 32, 56, 57, 65, 66, 32, 67, 68, 69, 70, 32,
   70, 70, 70, 70, 32, 48, 48, 48, 48]

/-! ## Definitions: AES-CTR stream and envelopes

The lower-level AES block (`aes.c`) is an external collaborator; its
CTR keystream is abstracted as a function `ks` of the 16-byte key, the
16-byte counter IV and the stream position, producing keystream bytes.
`crypto_cipher_encrypt` and `crypto_cipher_decrypt` both XOR the
keystream onto the data. -/

/-- XOR a message against the keystream for (`key`, `iv`), from stream
position 0. -/
def aes_crypt (ks : List Nat → List Nat → Nat → Nat)
    (key iv msg : List Nat) : List Nat :=
  (List.range msg.length).map (fun i => msg.getD i 0 ^^^ ks key iv i % 256)

/-- The all-zero counter installed by `aes_new_cipher` when no IV is
ever set (the hybrid envelope never sets one). -/
def zeroIV : List Nat := List.replicate 16 0

/-- Embedding of `crypto_cipher_decrypt_with_iv` for a cipher holding
`key`: reject inputs of at most `CIPHER_IV_LEN` bytes and undersized
output buffers, else install the leading 16 bytes as the counter and
decrypt the remainder. -/
def crypto_cipher_decrypt_with_iv (ks : List Nat → List Nat → Nat → Nat)
    (key : List Nat) (tolen : Nat) (src : List Nat) : Option (List Nat) :=
  if src.length ≤ 16 then none
  else if tolen < src.length - 16 then none
  else some (aes_crypt ks key (src.take 16) (src.drop 16))

/-! ## Definitions: the hybrid RSA/AES-CTR envelope

OpenSSL's RSA is an external collaborator: a key is its size in bytes
plus abstract encrypt/decrypt maps, constrained by `GoodRSA` to their
documented contract (fixed-size ciphertexts, decryption inverting
encryption). -/

/-- The padding modes of the facade (`PK_NO_PADDING`,
`PK_PKCS1_PADDING`, `PK_PKCS1_OAEP_PADDING`). -/
inductive Padding where
  | noPadding
  | pkcs1
  | oaep
deriving DecidableEq

/-- `crypto_get_rsa_padding_overhead` composed with
`crypto_get_rsa_padding`: bytes reserved by each padding mode. -/
def crypto_get_rsa_padding_overhead : Padding → Nat
  | .noPadding => 0
  | .oaep => 42
  | .pkcs1 => 11

/-- An RSA keypair as the hybrid envelope sees it: its modulus size
(`crypto_pk_keysize`) and the abstract encrypt/decrypt primitives
(`RSA_public_encrypt` / `RSA_private_decrypt`, `none` = C return -1). -/
structure RSAKey where
  pkeylen : Nat
  pubEncrypt : Padding → List Nat → Option (List Nat)
  privDecrypt : Padding → List Nat → Option (List Nat)

/-- The documented contract of the RSA primitives: ciphertexts are
exactly `pkeylen` bytes; encryption succeeds whenever the padded input
fits (no-padding inputs must be exactly `pkeylen` bytes); private
decryption inverts public encryption. -/
structure GoodRSA (r : RSAKey) : Prop where
  enc_len : ∀ pad m c, r.pubEncrypt pad m = some c → c.length = r.pkeylen
  enc_ok : ∀ pad m, m.length + crypto_get_rsa_padding_overhead pad ≤ r.pkeylen →
      (pad = .noPadding → m.length = r.pkeylen) → ∃ c, r.pubEncrypt pad m = some c
  dec_inv : ∀ pad m c, r.pubEncrypt pad m = some c → r.privDecrypt pad c = some m

/-- The symmetric key actually installed by the hybrid encryptor: the
freshly drawn `symkey`, with the top bit of byte 0 cleared when no
padding is used (the `cipher->key[0] &= 0x7f` line). -/
def hybridKey (pad : Padding) (symkey : List Nat) : List Nat :=
  if pad = .noPadding then (symkey.headD 0 &&& 127) :: symkey.tail else symkey

/-- Embedding of `crypto_pk_public_hybrid_encrypt`.  `symkey` is the
fresh 16-byte symmetric key drawn by `crypto_cipher_generate_key`; for
no-padding the top bit of its first byte is cleared.  Two spots where
the C has no ordinary return are modelled as `none`: when
`fromlen < pkeylen-overhead-CIPHER_KEY_LEN` the `memcpy` reads past the
end of `from` and the `size_t` computation of `symlen` wraps around;
and when `symlen = 0`, `crypto_cipher_encrypt` hits the fatal
`tor_assert(fromlen)`. -/
def crypto_pk_public_hybrid_encrypt (r : RSAKey)
    (ks : List Nat → List Nat → Nat → Nat) (symkey : List Nat)
    (src : List Nat) (pad : Padding) (force : Bool) : Option (List Nat) :=
  let overhead := crypto_get_rsa_padding_overhead pad
  let pkeylen := r.pkeylen
  if pad = .noPadding ∧ src.length < pkeylen then none
  else if force = false ∧ src.length + overhead ≤ pkeylen then
    r.pubEncrypt pad src
  else
    let key := hybridKey pad symkey
    if src.length < pkeylen - overhead - 16 then none
    else
      let buf := key ++ src.take (pkeylen - overhead - 16)
      let symlen := src.length - (pkeylen - overhead - 16)
      match r.pubEncrypt pad buf with
      | none => none
      | some c =>
          if c.length ≠ pkeylen then none
          else if symlen = 0 then none
          else some (c ++ aes_crypt ks key zeroIV
                      (src.drop (pkeylen - overhead - 16)))

/-- Embedding of `crypto_pk_private_hybrid_decrypt`: a ciphertext of at
most `pkeylen` bytes is a single RSA block; otherwise the first
`pkeylen` bytes decrypt to `symkey(16) ∥ data prefix` and the tail is
AES-CTR decrypted under that key. -/
def crypto_pk_private_hybrid_decrypt (r : RSAKey)
    (ks : List Nat → List Nat → Nat → Nat)
    (src : List Nat) (pad : Padding) : Option (List Nat) :=
  let pkeylen := r.pkeylen
  if src.length ≤ pkeylen then r.privDecrypt pad src
  else
    match r.privDecrypt pad (src.take pkeylen) with
    | none => none
    | some buf =>
        if buf.length < 16 then none
        else some (buf.drop 16 ++ aes_crypt ks (buf.take 16) zeroIV
                    (src.drop pkeylen))

/-- A concrete model RSA keypair of size `kb` bytes satisfying
`GoodRSA` (for `kb ≤ 256`): padded encryption stores the length byte
and zero-fills, no-padding encryption is the identity on full-size
blocks. -/
def toyRSA (kb : Nat) : RSAKey where
  pkeylen := kb
  pubEncrypt := fun pad m =>
    match pad with
    | .noPadding => if m.length = kb then some m else none
    | _ => if m.length + crypto_get_rsa_padding_overhead pad ≤ kb then
             some (m.length % 256 :: (m ++ List.replicate (kb - 1 - m.length) 0))
           else none
  privDecrypt := fun pad c =>
    match pad with
    | .noPadding => if c.length = kb then some c else none
    | _ => if c.length = kb then some ((c.drop 1).take (c.headD 0)) else none

/-- A trivial keystream model for concrete instances: every keystream
byte is zero. -/
def toyKS : List Nat → List Nat → Nat → Nat := fun _ _ _ => 0

/-! ## Definitions: global initialization -/

/-- Embedding of `crypto_global_init` as a transition on the
`_crypto_global_initialized` flag.  `engineOk` abstracts the success of
`ENGINE_register_all_complete`, `seedOk` that of `crypto_seed_rng(1)`.
Returns (C result, new flag).  The flag is raised before engine
registration and seeding are attempted. -/
def crypto_global_init (initialized : Bool) (useAccel : Int)
    (engineOk seedOk : Bool) : Int × Bool :=
  if !initialized then
    if useAccel > 0 && !engineOk then (-1, true)
    else ((if seedOk then 0 else -1), true)
  else (0, initialized)

/-! ## Theorems: SHA-1 sanity checks -/

/-- Sanity check: SHA-1 of the empty string
(`da39a3ee5e6b4b0d3255bfef95601890afd80709`). -/
theorem sha1_nil_check :
    sha1 [] = [0xda, 0x39, 0xa3, 0xee, 0x5e, 0x6b, 0x4b, 0x0d, 0x32, 0x55,
              0xbf, 0xef, 0x95, 0x60, 0x18, 0x90, 0xaf, 0xd8, 0x07, 0x09] := by
  decide

/-- Sanity check: SHA-1 of `"abc"`
(`a9993e364706816aba3e25717850c26c9cd0d89d`). -/
theorem sha1_abc_check :
    sha1 [97, 98, 99] = [0xa9, 0x99, 0x3e, 0x36, 0x47, 0x06, 0x81, 0x6a, 0xba, 0x3e,
                         0x25, 0x71, 0x78, 0x50, 0xc2, 0x6c, 0x9c, 0xd0, 0xd8, 0x9d] := by
  decide

/-! ## Theorems: the S2K absorption loop -/

/-- Reading back a list by indices reproduces it. -/
theorem map_getD_range (l : List Nat) :
    (List.range l.length).map (fun i => l.getD i 0) = l := by
  apply List.ext_getElem
  · simp
  · intro i h1 h2
    simp only [List.getElem_map, List.getElem_range]
    rw [List.getD_eq_getElem]

/-- Splitting one full period off the front of `repeatTake`. -/
theorem repeatTake_add (input : List Nat) (m : Nat) :
    repeatTake input (input.length + m) = input ++ repeatTake input m := by
  unfold repeatTake
  rw [List.range_add, List.map_append, List.map_map]
  congr 1
  · calc (List.range input.length).map (fun i => input.getD (i % input.length) 0)
        = (List.range input.length).map (fun i => input.getD i 0) := by
          apply List.map_congr_left
          intro i hi
          rw [Nat.mod_eq_of_lt (List.mem_range.mp hi)]
      _ = input := map_getD_range input
  · apply List.map_congr_left
    intro i _
    simp [Function.comp, Nat.add_mod_left]

/-- Below one period, `repeatTake` is just a prefix. -/
theorem repeatTake_small (input : List Nat) (count : Nat)
    (h : count ≤ input.length) : repeatTake input count = input.take count := by
  apply List.ext_getElem
  · simp [repeatTake, h]
  · intro i h1 h2
    have hi : i < count := by simpa [repeatTake] using h1
    have hil : i < input.length := lt_of_lt_of_le hi h
    simp only [repeatTake, List.getElem_map, List.getElem_range, List.getElem_take]
    rw [Nat.mod_eq_of_lt hil, List.getD_eq_getElem]

/-- The S2K absorption loop absorbs exactly the first `count` bytes of
the infinite repetition of its input. -/
theorem s2kLoop_eq_repeatTake (tmp : List Nat) (ht : tmp ≠ []) :
    ∀ (count : Nat) (d : crypto_digest_env),
      s2kLoop tmp count d = d ++ repeatTake tmp count := by
  have hlen : 0 < tmp.length := List.length_pos.mpr ht
  intro count
  induction count using Nat.strong_induction_on with
  | _ count ih =>
    intro d
    rw [s2kLoop]
    by_cases h0 : count = 0
    · simp [h0, repeatTake]
    · by_cases h1 : tmp.length ≤ count
      · have h2 : tmp.length ≠ 0 := Nat.pos_iff_ne_zero.mp hlen
        simp only [h0, h1, h2, dif_neg, dif_pos, if_neg, if_pos]
        rw [ih _ (Nat.sub_lt (Nat.pos_of_ne_zero h0) hlen)]
        have : count = tmp.length + (count - tmp.length) :=
          (Nat.add_sub_cancel' h1).symm
        rw [this, repeatTake_add, Nat.add_sub_cancel_left]
        simp [crypto_digest_add_bytes, List.append_assoc]
      · simp only [h0, h1, dif_neg]
        rw [repeatTake_small tmp count (Nat.le_of_not_le h1)]
        rfl

/-- `getD` on an all-zero list is `0` whatever the index. -/
theorem getD_replicate_zero (k i : Nat) :
    (List.replicate k (0 : Nat)).getD i 0 = 0 := by
  by_cases h : i < k
  · rw [List.getD_eq_getElem _ _ (by simpa using h)]
    simp
  · rw [List.getD_eq_default]
    simpa using Nat.le_of_not_lt h

/-- Repeating an all-zero list yields an all-zero list. -/
theorem repeatTake_replicate_zero (k count : Nat) :
    repeatTake (List.replicate k 0) count = List.replicate count 0 := by
  unfold repeatTake
  calc (List.range count).map (fun i => (List.replicate k (0:Nat)).getD (i % (List.replicate k (0:Nat)).length) 0)
      = (List.range count).map (fun _ => (0:Nat)) := by
        apply List.map_congr_left
        intro i _
        exact getD_replicate_zero _ _
    _ = List.replicate count 0 := by
        rw [List.map_const']
        simp

/-! ## Theorems: evaluating SHA-1 on the S2K scenario input

Hashing 1024 zero bytes is decomposed into 16 compressions of the
all-zero block followed by the padding block, so that each step only
ever touches 64-byte lists. -/

/-- Peeling one full block off the front of `sha1Blocks`. -/
theorem sha1Blocks_append (k : Nat) (h : Sha1State) (b rest : List Nat)
    (hb : b.length = 64) :
    sha1Blocks (k + 1) h (b ++ rest) = sha1Blocks k (sha1Compress h b) rest := by
  show sha1Blocks k (sha1Compress h ((b ++ rest).take 64)) ((b ++ rest).drop 64)
     = sha1Blocks k (sha1Compress h b) rest
  rw [List.take_left' hb, List.drop_left' hb]

/-- Hashing `64 * k` zero bytes iterates the zero-block compression. -/
theorem sha1Blocks_zeros (k j : Nat) (h : Sha1State) (rest : List Nat) :
    sha1Blocks (k + j) h (List.replicate (64 * k) 0 ++ rest)
      = sha1Blocks j ((fun s => sha1Compress s (List.replicate 64 0))^[k] h) rest := by
  induction k generalizing h with
  | zero => simp
  | succ k ih =>
      have hsplit : List.replicate (64 * (k + 1)) (0 : Nat)
          = List.replicate 64 0 ++ List.replicate (64 * k) 0 := by
        rw [← List.replicate_add]
        congr 1
        ring
      have harith : k + 1 + j = (k + j) + 1 := by omega
      rw [hsplit, List.append_assoc, harith,
        sha1Blocks_append _ _ _ _ (by simp),
        ih (sha1Compress h (List.replicate 64 0)),
        Function.iterate_succ_apply]

/-- SHA-1 of 1024 zero bytes, `60cacbf3d72e1e7834203da608037b1bf83b40e8`. -/
theorem sha1_zeros_1024 :
    sha1 (List.replicate 1024 0) =
      [0x60, 0xca, 0xcb, 0xf3, 0xd7, 0x2e, 0x1e, 0x78, 0x34, 0x20,
       0x3d, 0xa6, 0x08, 0x03, 0x7b, 0x1b, 0xf8, 0x3b, 0x40, 0xe8] := by
  have hbytes : toBytesBE 8 (8 * 1024) = [0, 0, 0, 0, 0, 0, 32, 0] := by decide
  have hpad : sha1Pad (List.replicate 1024 0)
      = List.replicate (64 * 16) 0
          ++ (128 :: (List.replicate 55 0 ++ [0, 0, 0, 0, 0, 0, 32, 0])) := by
    simp [sha1Pad, hbytes]
  have hl : (List.replicate (64 * 16) (0 : Nat)
      ++ (128 :: (List.replicate 55 0 ++ [0, 0, 0, 0, 0, 0, 32, 0]))).length / 64 = 17 := by
    simp
  simp only [sha1]
  rw [hpad, hl, show (17 : Nat) = 16 + 1 from rfl, sha1Blocks_zeros]
  decide

/-- S2K on the all-zero 9-byte specifier with empty secret: the digest
of 1024 zero bytes. -/
theorem secret_to_key_zero_vector :
    secret_to_key 20 [] (List.replicate 9 0) =
      [0x60, 0xca, 0xcb, 0xf3, 0xd7, 0x2e, 0x1e, 0x78, 0x34, 0x20,
       0x3d, 0xa6, 0x08, 0x03, 0x7b, 0x1b, 0xf8, 0x3b, 0x40, 0xe8] := by
  have hc : ((List.replicate 9 (0 : Nat)).getD 8 0) = 0 := by decide
  have htmp : (List.replicate 9 (0 : Nat)).take 8 ++ ([] : List Nat)
      = List.replicate 8 0 := by decide
  have hcount : (16 + ((0 : Nat) &&& 15)) <<< (((0 : Nat) >>> 4) + 6) = 1024 := by decide
  simp only [secret_to_key, hc, htmp, hcount]
  rw [s2kLoop_eq_repeatTake _ (by decide), repeatTake_replicate_zero]
  simp only [crypto_digest_get_digest, List.nil_append]
  rw [sha1_zeros_1024]
  rfl

/-! ## Claim C3 -/

/-- C3, corrected vector: `secret_to_key` with a 9-byte specifier
absorbs exactly `(16 + (c & 0xF)) << ((c >> 4) + 6)` bytes of the
infinite repetition of `salt ∥ secret` into one SHA-1 context and
emits the first `key_out_len ≤ 20` digest bytes; on the all-zero
specifier with empty secret the 20-byte output is the SHA-1 of 1024
zero bytes, `60cacbf3d72e1e7834203da608037b1bf83b40e8`. -/
theorem claim_C3 :
    (∀ (secret s2k : List Nat) (key_out_len : Nat),
        s2k.length = 9 → key_out_len ≤ 20 →
        secret_to_key key_out_len secret s2k
          = (sha1 (repeatTake (s2k.take 8 ++ secret)
              ((16 + (s2k.getD 8 0 &&& 15)) <<< ((s2k.getD 8 0 >>> 4) + 6)))).take key_out_len)
    ∧ secret_to_key 20 [] (List.replicate 9 0) =
      [0x60, 0xca, 0xcb, 0xf3, 0xd7, 0x2e, 0x1e, 0x78, 0x34, 0x20,
       0x3d, 0xa6, 0x08, 0x03, 0x7b, 0x1b, 0xf8, 0x3b, 0x40, 0xe8] := by
  refine ⟨fun secret s2k key_out_len hlen _ => ?_, secret_to_key_zero_vector⟩
  have hne : s2k.take 8 ++ secret ≠ [] := by
    intro h
    have := congrArg List.length h
    simp [List.length_take, hlen] at this
  simp only [secret_to_key]
  rw [s2kLoop_eq_repeatTake _ hne]
  rfl

/-- C3's claimed concrete output `1e41384b…ed5790c6` is not what the
code computes: the true SHA-1 of 1024 zero bytes starts `60cacbf3`. -/
theorem claim_C3_cex :
    secret_to_key 20 [] (List.replicate 9 0) ≠
      [0x1e, 0x41, 0x38, 0x4b, 0xef, 0xf8, 0x2b, 0xb2, 0x0a, 0x89,
       0x4d, 0x8a, 0x6d, 0x2b, 0x4b, 0xab, 0xed, 0x57, 0x90, 0xc6] := by
  rw [secret_to_key_zero_vector]
  decide

/-- Witness for `claim_C3`: its general part applied at a concrete
1-byte secret and the all-zero specifier. -/
theorem claim_C3_witness :
    (List.replicate 9 (0 : Nat)).length = 9 ∧ 20 ≤ 20 ∧
    secret_to_key 20 [97] (List.replicate 9 0)
      = (sha1 (repeatTake ((List.replicate 9 (0 : Nat)).take 8 ++ [97])
          ((16 + ((List.replicate 9 (0 : Nat)).getD 8 0 &&& 15))
            <<< (((List.replicate 9 (0 : Nat)).getD 8 0 >>> 4) + 6)))).take 20 :=
  ⟨by decide, by decide, claim_C3.1 [97] (List.replicate 9 0) 20 (by decide) (by decide)⟩

/-! ## Claim C10 -/

/-- C10: `crypto_global_init` raises the one-time flag before engine
registration and before the initial seeding, so even a first call that
fails leaves the flag set, and every call made with the flag set
returns 0 immediately, whatever the engine or seeding outcomes would
have been. -/
theorem claim_C10 :
    ∀ (useAccel : Int) (engineOk seedOk : Bool),
      (crypto_global_init false useAccel engineOk seedOk).2 = true
      ∧ (∀ (useAccel2 : Int) (engineOk2 seedOk2 : Bool),
          crypto_global_init true useAccel2 engineOk2 seedOk2 = (0, true)) := by
  intro useAccel engineOk seedOk
  constructor
  · simp only [crypto_global_init, Bool.not_false, if_true]
    split_ifs <;> rfl
  · intro u e s
    rfl

/-! ## Claim C4 -/

/-- C4: `tor_check_dh_key` accepts `bn` iff `2 ≤ bn ≤ p - 2` for the
fixed RFC 2409 group-2 prime `p`; in particular `0`, `1`, `p-1`, `p`
and `p+1` are rejected, and `crypto_dh_compute_secret` fails on every
peer value whose big number is rejected. -/
theorem claim_C4 :
    (∀ bn : Nat, tor_check_dh_key bn = true ↔ 2 ≤ bn ∧ bn ≤ dh_param_p - 2)
    ∧ tor_check_dh_key 0 = false
    ∧ tor_check_dh_key 1 = false
    ∧ tor_check_dh_key (dh_param_p - 1) = false
    ∧ tor_check_dh_key dh_param_p = false
    ∧ tor_check_dh_key (dh_param_p + 1) = false
    ∧ ∀ (dhSecret : Nat → Option (List Nat)) (peer : List Nat) (outLen : Nat),
        tor_check_dh_key (bytesBEToNat peer) = false →
        crypto_dh_compute_secret dhSecret peer outLen = none := by
  have hp : 4 ≤ dh_param_p := by norm_num [dh_param_p]
  refine ⟨?_, by decide, by decide, by decide, by decide, by decide, ?_⟩
  · intro bn
    unfold tor_check_dh_key
    split_ifs with hb1 hb2
    · simp only [Bool.false_eq_true, false_iff]
      omega
    · simp only [Bool.false_eq_true, false_iff]
      omega
    · simp only [true_iff]
      omega
  · intro dhSecret peer outLen h
    simp [crypto_dh_compute_secret, h]

/-- Witness for `claim_C4`: the peer value 1 is rejected and
compute-secret fails on it. -/
theorem claim_C4_witness :
    tor_check_dh_key (bytesBEToNat [1]) = false ∧
    crypto_dh_compute_secret (fun _ => none) [1] 20 = none :=
  ⟨by decide, claim_C4.2.2.2.2.2.2 (fun _ => none) [1] 20 (by decide)⟩

/-! ## Claim C5 -/

/-- Counting residues below a multiple of the modulus: each residue
class `r < max` has exactly `q` members below `max * q`. -/
theorem card_range_mul_filter_mod (max q r : Nat) (hmax : 0 < max) (hr : r < max) :
    ((Finset.range (max * q)).filter (fun v => v % max = r)).card = q := by
  have himg : (Finset.range (max * q)).filter (fun v => v % max = r)
      = (Finset.range q).image (fun j => j * max + r) := by
    ext v
    simp only [Finset.mem_filter, Finset.mem_range, Finset.mem_image]
    constructor
    · rintro ⟨hv, hmod⟩
      refine ⟨v / max, ?_, ?_⟩
      · exact (Nat.div_lt_iff_lt_mul hmax).mpr (by rwa [Nat.mul_comm] at hv)
      · calc v / max * max + r = max * (v / max) + v % max := by
              rw [Nat.mul_comm, hmod]
          _ = v := Nat.div_add_mod v max
    · rintro ⟨j, hj, rfl⟩
      refine ⟨?_, ?_⟩
      · calc j * max + r < j * max + max := by omega
          _ = (j + 1) * max := by ring
          _ ≤ q * max := Nat.mul_le_mul_right _ hj
          _ = max * q := Nat.mul_comm _ _
      · rw [Nat.mul_comm j max, Nat.mul_add_mod, Nat.mod_eq_of_lt hr]
  rw [himg, Finset.card_image_of_injective, Finset.card_range]
  intro a b hab
  exact Nat.eq_of_mul_eq_mul_right hmax (Nat.add_right_cancel hab)

/-- C5: for `0 < max < UINT_MAX`, `crypto_rand_int` returns the first
draw below `cutoff = UINT_MAX - UINT_MAX % max` reduced `% max`, so
the result is always in `[0, max)`; the cutoff is a multiple of `max`,
and each residue `r < max` is hit by exactly `cutoff / max` of the
accepted draw values, so the reduction is unbiased. -/
theorem claim_C5 :
    ∀ (max : Nat) (draws : Nat → Nat)
      (h : ∃ i, draws i < crypto_rand_int_cutoff max),
      0 < max → max < UINT_MAX →
      crypto_rand_int max draws h < max
      ∧ crypto_rand_int_cutoff max % max = 0
      ∧ (∀ r, r < max →
          ((Finset.range (crypto_rand_int_cutoff max)).filter
            (fun v => v % max = r)).card = crypto_rand_int_cutoff max / max) := by
  intro max draws h hpos _
  have hdm : max * (UINT_MAX / max) + UINT_MAX % max = UINT_MAX := Nat.div_add_mod _ _
  have hco : crypto_rand_int_cutoff max = max * (UINT_MAX / max) := by
    unfold crypto_rand_int_cutoff
    omega
  refine ⟨Nat.mod_lt _ hpos, ?_, ?_⟩
  · rw [hco]
    exact Nat.mul_mod_right _ _
  · intro r hr
    rw [hco, Nat.mul_div_cancel_left _ hpos]
    exact card_range_mul_filter_mod max _ r hpos hr

/-- Witness for `claim_C5`: `max = 3` with the identity draw stream
(first draw 0 is accepted). -/
theorem claim_C5_witness :
    0 < 3 ∧ 3 < UINT_MAX ∧
    (crypto_rand_int 3 (fun i => i) ⟨0, by decide⟩ < 3
     ∧ crypto_rand_int_cutoff 3 % 3 = 0
     ∧ (∀ r, r < 3 →
        ((Finset.range (crypto_rand_int_cutoff 3)).filter
          (fun v => v % 3 = r)).card = crypto_rand_int_cutoff 3 / 3)) :=
  ⟨by decide, by decide, claim_C5 3 (fun i => i) ⟨0, by decide⟩ (by decide) (by decide)⟩

/-! ## Claim C7 -/

/-- C7: `crypto_cipher_decrypt_with_iv` fails exactly when the input is
shorter than 17 bytes or the output buffer is shorter than the input
minus 16; otherwise it installs the first 16 input bytes as the
counter IV and decrypts the rest, producing `len - 16` bytes.  (Inputs
of `INT_MAX` bytes or more hit a fatal assertion instead, hence the
bound.) -/
theorem claim_C7 :
    ∀ (ks : List Nat → List Nat → Nat → Nat) (key : List Nat)
      (tolen : Nat) (src : List Nat),
      src.length < 2147483648 →
      (crypto_cipher_decrypt_with_iv ks key tolen src = none ↔
        src.length < 17 ∨ tolen < src.length - 16)
      ∧ (∀ out, crypto_cipher_decrypt_with_iv ks key tolen src = some out →
          out = aes_crypt ks key (src.take 16) (src.drop 16)
          ∧ out.length = src.length - 16) := by
  intro ks key tolen src _
  constructor
  · unfold crypto_cipher_decrypt_with_iv
    split_ifs with h1 h2
    · simp only [true_iff]
      omega
    · simp only [true_iff]
      omega
    · simp only [reduceCtorEq, false_iff]
      omega
  · intro out hout
    unfold crypto_cipher_decrypt_with_iv at hout
    split_ifs at hout with h1 h2
    obtain rfl := Option.some_injective _ hout.symm
    refine ⟨rfl, ?_⟩
    simp [aes_crypt]

/-- Witness for `claim_C7`: a 17-byte input with a 1-byte output
buffer under the zero keystream. -/
theorem claim_C7_witness :
    (List.replicate 17 (1 : Nat)).length < 2147483648 ∧
    ((crypto_cipher_decrypt_with_iv toyKS [] 1 (List.replicate 17 1) = none ↔
        (List.replicate 17 (1 : Nat)).length < 17
          ∨ 1 < (List.replicate 17 (1 : Nat)).length - 16)
     ∧ (∀ out, crypto_cipher_decrypt_with_iv toyKS [] 1 (List.replicate 17 1) = some out →
          out = aes_crypt toyKS []
              ((List.replicate 17 (1 : Nat)).take 16) ((List.replicate 17 (1 : Nat)).drop 16)
          ∧ out.length = (List.replicate 17 (1 : Nat)).length - 16)) :=
  ⟨by decide, claim_C7 toyKS [] 1 (List.replicate 17 1) (by decide)⟩

/-! ## Claim C8 -/

/-- C8 (`TOR_ISSPACE`/`TOR_ISXDIGIT` modelled from the spec, their
home `compat.h` being outside this snapshot): the fingerprint syntax
check succeeds iff the string is exactly 49 characters, every position
`i` with `i % 5 = 4` is whitespace and every other position is an
uppercase hex digit. -/
theorem claim_C8 :
    ∀ s : List Nat, 0 ∉ s →
      (crypto_pk_check_fingerprint_ok s = true ↔
        (s.length = 49 ∧ ∀ i, i < 49 →
          (if i % 5 = 4 then TOR_ISSPACE (s.getD i 0)
           else TOR_ISXDIGIT (s.getD i 0)) = true)) := by
  intro s hnz
  unfold crypto_pk_check_fingerprint_ok FINGERPRINT_LEN
  rw [Bool.and_eq_true, List.all_eq_true, decide_eq_true_eq]
  constructor
  · rintro ⟨hall, hterm⟩
    have hlen : s.length = 49 := by
      rcases Nat.lt_trichotomy s.length 49 with hl | he | hg
      · exfalso
        have hx := hall _ (List.mem_range.mpr hl)
        rw [List.getD_eq_default _ _ (le_refl _)] at hx
        by_cases hmod : s.length % 5 = 4
        · rw [if_pos hmod] at hx
          exact absurd hx (by decide)
        · rw [if_neg hmod] at hx
          exact absurd hx (by decide)
      · exact he
      · exfalso
        rw [List.getD_eq_getElem s 0 hg] at hterm
        exact hnz (hterm ▸ List.getElem_mem hg)
    exact ⟨hlen, fun i hi => hall i (List.mem_range.mpr hi)⟩
  · rintro ⟨hlen, hall⟩
    refine ⟨fun i hi => hall i (List.mem_range.mp hi), ?_⟩
    exact List.getD_eq_default _ _ (by omega)

/-- Witness for `claim_C8`: a well-formed sample fingerprint. -/
theorem claim_C8_witness :
    (0 : Nat) ∉ fpSample ∧
    (crypto_pk_check_fingerprint_ok fpSample = true ↔
      (fpSample.length = 49 ∧ ∀ i, i < 49 →
        (if i % 5 = 4 then TOR_ISSPACE (fpSample.getD i 0)
         else TOR_ISXDIGIT (fpSample.getD i 0)) = true)) :=
  ⟨by decide, claim_C8 fpSample (by decide)⟩

/-! ## Claim C6 -/

/-- C6, corrected whitespace set: the decoder skips TAB, LF, VT, CR
and SP (but not FF, which the table marks invalid), stops at the first
`=` (byte 61), fails on any byte the table marks invalid, and handles
leftovers as 0 → nothing, 1 → error, 2 → one byte from the top 8 of
12 bits, 3 → two bytes from the top 16 of 18 bits; padding is not
verified, so `"YQ=="`, `"YQ"` and `"YQ==="` all decode to `"a"`. -/
theorem claim_C6 :
    (∀ (c : Nat), c ∈ [9, 10, 11, 13, 32] →
      ∀ (rest : List Nat) (n n_idx : Nat) (acc : List Nat),
        b64Loop (c :: rest) n n_idx acc = b64Loop rest n n_idx acc)
    ∧ (∀ (rest : List Nat) (n n_idx : Nat) (acc : List Nat),
        b64Loop (61 :: rest) n n_idx acc = b64Finish n n_idx acc)
    ∧ (∀ (c : Nat) (rest : List Nat) (n n_idx : Nat) (acc : List Nat),
        base64_decode_table.getD c 255 = 255 →
        b64Loop (c :: rest) n n_idx acc = none)
    ∧ base64_decode_table.getD 12 255 = 255
    ∧ (∀ (n : Nat) (acc : List Nat),
        b64Finish n 0 acc = some acc
        ∧ b64Finish n 1 acc = none
        ∧ b64Finish n 2 acc = some (acc ++ [n >>> 4])
        ∧ b64Finish n 3 acc = some (acc ++ [n >>> 10, (n >>> 2) % 256]))
    ∧ base64_decode 3 [89, 81, 61, 61] = some [97]
    ∧ base64_decode 1 [89, 81] = some [97]
    ∧ base64_decode 3 [89, 81, 61, 61, 61] = some [97] := by
  refine ⟨?_, ?_, ?_, by decide, ?_, by decide, by decide, by decide⟩
  · intro c hc
    fin_cases hc <;> intro rest n n_idx acc <;> rfl
  · intro rest n n_idx acc
    rfl
  · intro c rest n n_idx acc h
    simp only [b64Loop, h]
    rfl
  · intro n acc
    exact ⟨rfl, rfl, rfl, rfl⟩

/-- C6 as stated is false: FF (byte 12) is claimed to be skipped
whitespace, but the table rejects it, so `"Y\x0CQ"` fails while
`"YQ"` decodes to `"a"`. -/
theorem claim_C6_cex :
    base64_decode 3 [89, 12, 81] = none
    ∧ base64_decode 3 [89, 81] = some [97] := by
  exact ⟨by decide, by decide⟩

/-- Witness for `claim_C6`: TAB is skipped and byte 200 is rejected. -/
theorem claim_C6_witness :
    (9 : Nat) ∈ [9, 10, 11, 13, 32]
    ∧ b64Loop [9] 0 0 [] = b64Loop [] 0 0 []
    ∧ base64_decode_table.getD 200 255 = 255
    ∧ b64Loop [200] 0 0 [] = none :=
  ⟨by decide, claim_C6.1 9 (by decide) [] 0 0 [], by decide,
   claim_C6.2.2.1 200 [] 0 0 [] (by decide)⟩

/-! ## Claim C9 -/

/-- The character pass of `base32_decode` fails iff some character is
outside the accepted set. -/
theorem base32_vals_none_iff (src : List Nat) :
    base32_vals src = none ↔ ∃ c ∈ src, base32_char_val c = none := by
  induction src with
  | nil => simp [base32_vals]
  | cons c rest ih =>
      cases hc : base32_char_val c with
      | none => simp [base32_vals, hc]
      | some v =>
          cases hr : base32_vals rest with
          | none =>
              simp only [base32_vals, hc, hr, true_iff]
              obtain ⟨x, hx, hxv⟩ := ih.mp hr
              exact ⟨x, List.mem_cons_of_mem _ hx, hxv⟩
          | some vs =>
              simp only [base32_vals, hc, hr, reduceCtorEq, false_iff]
              rintro ⟨x, hx, hxv⟩
              rcases List.mem_cons.mp hx with rfl | hx
              · rw [hc] at hxv
                cases hxv
              · have := ih.mpr ⟨x, hx, hxv⟩
                rw [hr] at this
                cases this

/-- C9, corrected alphabet: under the decoder's preconditions (bit
count divisible by 8, big enough output buffer), `base32_decode` fails
iff the input has a character outside the accepted set, which is the
lowercase letters, the digits 2-7, and also the uppercase letters; an
input of accepted characters succeeds. -/
theorem claim_C9 :
    (∀ (destlen : Nat) (src : List Nat),
      src.length * 5 % 8 = 0 → src.length * 5 / 8 ≤ destlen →
      (base32_decode destlen src = none ↔ ∃ c ∈ src, base32_char_val c = none))
    ∧ (∀ c : Nat, base32_char_val c ≠ none ↔
        ((0x60 < c ∧ c < 0x7B) ∨ (0x31 < c ∧ c < 0x38) ∨ (0x40 < c ∧ c < 0x5B))) := by
  constructor
  · intro destlen src h8 hd
    unfold base32_decode
    rw [if_neg (by omega), if_neg (by omega)]
    cases hv : base32_vals src with
    | none => simpa using (base32_vals_none_iff src).mp hv
    | some tmp =>
        simp only [reduceCtorEq, false_iff]
        intro hbad
        have := (base32_vals_none_iff src).mpr hbad
        rw [hv] at this
        cases this
  · intro c
    unfold base32_char_val
    split_ifs with h1 h2 h3 <;> simp <;> omega

/-- C9 as stated is false: eight uppercase `A`s (outside the lowercase
alphabet `"abcdefghijklmnopqrstuvwxyz234567"`) are decoded
successfully. -/
theorem claim_C9_cex :
    base32_decode 5 (List.replicate 8 65) ≠ none
    ∧ ¬((97 ≤ 65 ∧ 65 ≤ 122) ∨ (50 ≤ 65 ∧ 65 ≤ 55)) := by
  exact ⟨by decide, by decide⟩

/-- Witness for `claim_C9`: an all-lowercase input decodes (the
failure iff is applied at a concrete accepted input). -/
theorem claim_C9_witness :
    (List.replicate 8 (97 : Nat)).length * 5 % 8 = 0
    ∧ (List.replicate 8 (97 : Nat)).length * 5 / 8 ≤ 5
    ∧ (base32_decode 5 (List.replicate 8 97) = none ↔
        ∃ c ∈ List.replicate 8 (97 : Nat), base32_char_val c = none) :=
  ⟨by decide, by decide, claim_C9.1 5 (List.replicate 8 97) (by decide) (by decide)⟩

/-! ## Claims C1 and C2: the hybrid envelope -/

/-- The keystream XOR preserves length. -/
theorem aes_crypt_length (ks : List Nat → List Nat → Nat → Nat)
    (key iv msg : List Nat) : (aes_crypt ks key iv msg).length = msg.length := by
  simp [aes_crypt]

/-- Applying the same keystream twice restores the message (CTR
encryption and decryption are the same XOR). -/
theorem aes_crypt_invol (ks : List Nat → List Nat → Nat → Nat)
    (key iv msg : List Nat) :
    aes_crypt ks key iv (aes_crypt ks key iv msg) = msg := by
  apply List.ext_getElem
  · simp [aes_crypt]
  · intro i h1 h2
    simp only [aes_crypt, aes_crypt_length, List.getElem_map, List.getElem_range]
    rw [List.getD_eq_getElem _ _ (by simpa [aes_crypt] using h2)]
    simp only [List.getElem_map, List.getElem_range]
    rw [Nat.xor_cancel_right, List.getD_eq_getElem]

/-- The installed hybrid key is still 16 bytes long. -/
theorem hybridKey_length (pad : Padding) (symkey : List Nat)
    (hk : symkey.length = 16) : (hybridKey pad symkey).length = 16 := by
  unfold hybridKey
  split_ifs
  · simp only [List.length_cons, List.length_tail, hk]
  · exact hk

/-- The long branch of the hybrid encryptor: under the RSA contract,
when neither the no-padding length check nor the single-block shortcut
fires and the message reaches past `pkeylen - overhead - 16`, the
output is the RSA block over `key ∥ prefix` followed by the CTR-
encrypted tail. -/
theorem hybrid_encrypt_long (r : RSAKey) (ks : List Nat → List Nat → Nat → Nat)
    (symkey src : List Nat) (pad : Padding) (force : Bool)
    (hr : GoodRSA r) (hk : symkey.length = 16)
    (hov : crypto_get_rsa_padding_overhead pad + 16 ≤ r.pkeylen)
    (hno : pad = .noPadding → r.pkeylen ≤ src.length)
    (hbr : ¬(force = false ∧ src.length + crypto_get_rsa_padding_overhead pad ≤ r.pkeylen))
    (hlen : r.pkeylen - crypto_get_rsa_padding_overhead pad - 16 < src.length) :
    ∃ rc, r.pubEncrypt pad (hybridKey pad symkey
            ++ src.take (r.pkeylen - crypto_get_rsa_padding_overhead pad - 16)) = some rc
      ∧ rc.length = r.pkeylen
      ∧ crypto_pk_public_hybrid_encrypt r ks symkey src pad force
          = some (rc ++ aes_crypt ks (hybridKey pad symkey) zeroIV
              (src.drop (r.pkeylen - crypto_get_rsa_padding_overhead pad - 16))) := by
  have hbuflen : (hybridKey pad symkey
      ++ src.take (r.pkeylen - crypto_get_rsa_padding_overhead pad - 16)).length
        = r.pkeylen - crypto_get_rsa_padding_overhead pad := by
    simp only [List.length_append, hybridKey_length pad symkey hk, List.length_take]
    omega
  obtain ⟨rc, hrc⟩ := hr.enc_ok pad
    (hybridKey pad symkey
      ++ src.take (r.pkeylen - crypto_get_rsa_padding_overhead pad - 16))
    (by rw [hbuflen]; omega)
    (by
      intro hpad
      rw [hbuflen, hpad]
      simp only [crypto_get_rsa_padding_overhead]
      omega)
  have hrclen := hr.enc_len pad _ rc hrc
  refine ⟨rc, hrc, hrclen, ?_⟩
  simp only [crypto_pk_public_hybrid_encrypt]
  rw [if_neg (by
    rintro ⟨hpad, hlt⟩
    exact absurd (hno hpad) (by omega))]
  rw [if_neg hbr, if_neg (by omega)]
  simp only [hrc]
  rw [if_neg (by simp [hrclen]), if_neg (by omega)]

/-- The length of a padded toy ciphertext is the key size. -/
theorem toyRSA_pad_len (kb ml : Nat) (m : List Nat) (hml : m.length = ml)
    (hl : ml + 11 ≤ kb) :
    (ml % 256 :: (m ++ List.replicate (kb - 1 - ml) 0)).length = kb := by
  simp only [List.length_cons, List.length_append, List.length_replicate, hml]
  omega

/-- The model keypair `toyRSA kb` satisfies the RSA contract whenever
`kb ≤ 256`. -/
theorem toyRSA_good (kb : Nat) (hkb : kb ≤ 256) : GoodRSA (toyRSA kb) := by
  constructor
  · intro pad m c h
    cases pad
    case noPadding =>
      simp only [toyRSA] at h ⊢
      split_ifs at h with hl
      obtain rfl := Option.some_injective _ h.symm
      exact hl
    all_goals
      simp only [toyRSA, crypto_get_rsa_padding_overhead] at h ⊢
      split_ifs at h with hl
      obtain rfl := Option.some_injective _ h.symm
      simp only [List.length_cons, List.length_append, List.length_replicate]
      omega
  · intro pad m hfit hno
    cases pad
    case noPadding =>
      refine ⟨m, ?_⟩
      have hm : m.length = kb := hno rfl
      simp only [toyRSA]
      rw [if_pos hm]
    all_goals
      simp only [toyRSA, crypto_get_rsa_padding_overhead] at hfit ⊢
      exact ⟨_, by rw [if_pos hfit]⟩
  · intro pad m c h
    cases pad
    case noPadding =>
      simp only [toyRSA] at h ⊢
      split_ifs at h with hl
      obtain rfl := Option.some_injective _ h.symm
      rw [if_pos hl]
    all_goals
      simp only [toyRSA, crypto_get_rsa_padding_overhead] at h ⊢
      split_ifs at h with hl
      obtain rfl := Option.some_injective _ h.symm
      have hm : m.length < 256 := by omega
      rw [if_pos (toyRSA_pad_len kb m.length m rfl (by omega))]
      simp only [List.headD_cons, List.drop_succ_cons, List.drop_zero]
      rw [Nat.mod_eq_of_lt hm, List.take_left]

/-- C1, amended: for every RSA keypair satisfying the standard
contract, every padding mode and both force settings, the hybrid
round-trip recovers the message — provided no-padding messages are at
least the key size (shorter ones are rejected up front) and, under
`force`, the message reaches past `pkeylen - overhead - 16` (below
that bound the encryptor's `symlen` computation underflows or the
zero-length `crypto_cipher_encrypt` assertion fires, so no ciphertext
is produced). -/
theorem claim_C1 :
    ∀ (r : RSAKey) (ks : List Nat → List Nat → Nat → Nat)
      (symkey src : List Nat) (pad : Padding) (force : Bool),
      GoodRSA r → symkey.length = 16 →
      crypto_get_rsa_padding_overhead pad + 16 ≤ r.pkeylen →
      (pad = .noPadding → r.pkeylen ≤ src.length) →
      (force = true → r.pkeylen - crypto_get_rsa_padding_overhead pad - 16 < src.length) →
      ∃ c, crypto_pk_public_hybrid_encrypt r ks symkey src pad force = some c
        ∧ crypto_pk_private_hybrid_decrypt r ks c pad = some src := by
  intro r ks symkey src pad force hr hk hov hno hforce
  by_cases hshort : force = false ∧ src.length + crypto_get_rsa_padding_overhead pad ≤ r.pkeylen
  · -- single-block branch
    obtain ⟨hf, hfit⟩ := hshort
    have hnp : pad = .noPadding → src.length = r.pkeylen := by
      intro hpad
      have h1 := hno hpad
      rw [hpad] at hfit
      simp only [crypto_get_rsa_padding_overhead] at hfit
      omega
    obtain ⟨c, hc⟩ := hr.enc_ok pad src hfit hnp
    have hclen := hr.enc_len pad src c hc
    refine ⟨c, ?_, ?_⟩
    · simp only [crypto_pk_public_hybrid_encrypt]
      rw [if_neg (by
        rintro ⟨hpad, hlt⟩
        exact absurd (hno hpad) (by omega))]
      rw [if_pos ⟨hf, hfit⟩]
      exact hc
    · simp only [crypto_pk_private_hybrid_decrypt]
      rw [if_pos (le_of_eq hclen)]
      exact hr.dec_inv pad src c hc
  · -- long branch
    have hlen : r.pkeylen - crypto_get_rsa_padding_overhead pad - 16 < src.length := by
      cases force with
      | true => exact hforce rfl
      | false =>
          have : ¬ src.length + crypto_get_rsa_padding_overhead pad ≤ r.pkeylen := by
            intro hfit
            exact hshort ⟨rfl, hfit⟩
          omega
    obtain ⟨rc, hrc, hrclen, henc⟩ :=
      hybrid_encrypt_long r ks symkey src pad force hr hk hov hno hshort hlen
    refine ⟨_, henc, ?_⟩
    have htail : (aes_crypt ks (hybridKey pad symkey) zeroIV
        (src.drop (r.pkeylen - crypto_get_rsa_padding_overhead pad - 16))).length
          = src.length - (r.pkeylen - crypto_get_rsa_padding_overhead pad - 16) := by
      rw [aes_crypt_length, List.length_drop]
    simp only [crypto_pk_private_hybrid_decrypt]
    rw [if_neg (by
      rw [List.length_append, hrclen, htail]
      omega)]
    rw [List.take_left' hrclen]
    have hbuf := hr.dec_inv pad _ rc hrc
    simp only [hbuf]
    have hkeylen := hybridKey_length pad symkey hk
    rw [if_neg (by
      rw [List.length_append, hkeylen, List.length_take]
      omega)]
    rw [List.drop_left' hrclen, List.take_left' hkeylen, List.drop_left' hkeylen,
      aes_crypt_invol, List.take_append_drop]

/-- C1 as stated (any message length, both force settings) is false:
with a valid model keypair of size 32, PKCS1 padding and `force`, a
5-byte message makes `symlen` zero, the fatal
`tor_assert(fromlen)` in `crypto_cipher_encrypt` fires, and no
ciphertext is ever produced, so nothing can decrypt back. -/
theorem claim_C1_cex :
    GoodRSA (toyRSA 32) ∧
    crypto_pk_public_hybrid_encrypt (toyRSA 32) toyKS (List.replicate 16 7)
      [1, 2, 3, 4, 5] Padding.pkcs1 true = none :=
  ⟨toyRSA_good 32 (by decide), by decide⟩

/-- Witness for `claim_C1`: the model 32-byte keypair, PKCS1 padding,
no force, and a 3-byte message (single-block branch). -/
theorem claim_C1_witness :
    GoodRSA (toyRSA 32) ∧ (List.replicate 16 (7 : Nat)).length = 16 ∧
    (∃ c, crypto_pk_public_hybrid_encrypt (toyRSA 32) toyKS (List.replicate 16 7)
        [1, 2, 3] Padding.pkcs1 false = some c
      ∧ crypto_pk_private_hybrid_decrypt (toyRSA 32) toyKS c Padding.pkcs1
          = some [1, 2, 3]) :=
  ⟨toyRSA_good 32 (by decide), by decide,
   claim_C1 (toyRSA 32) toyKS (List.replicate 16 7) [1, 2, 3] Padding.pkcs1 false
     (toyRSA_good 32 (by decide)) (by decide) (by decide) (by decide) (by decide)⟩

/-- C2, amended: the no-padding length check (`-1` for short inputs)
comes first; with `force` unset a message fitting in one padded block
is passed straight to `RSA_public_encrypt`; in the remaining cases,
provided the message reaches past `T - 16 = pkeylen - overhead - 16`
(below that the `symlen` underflow / zero-length assertion prevents
any return), the output length is `pkeylen + (N - (T - 16))`, which is
the claimed `K + (N - T + 16)`; e.g. `128 + (500 - 101) = 527`. -/
theorem claim_C2 :
    ∀ (r : RSAKey) (ks : List Nat → List Nat → Nat → Nat)
      (symkey src : List Nat) (pad : Padding) (force : Bool),
      GoodRSA r → symkey.length = 16 →
      crypto_get_rsa_padding_overhead pad + 16 ≤ r.pkeylen →
      ((pad = .noPadding ∧ src.length < r.pkeylen →
          crypto_pk_public_hybrid_encrypt r ks symkey src pad force = none)
       ∧ (¬(pad = .noPadding ∧ src.length < r.pkeylen) →
          force = false → src.length + crypto_get_rsa_padding_overhead pad ≤ r.pkeylen →
          crypto_pk_public_hybrid_encrypt r ks symkey src pad force
            = r.pubEncrypt pad src)
       ∧ (¬(force = false ∧ src.length + crypto_get_rsa_padding_overhead pad ≤ r.pkeylen) →
          (pad = .noPadding → r.pkeylen ≤ src.length) →
          r.pkeylen - crypto_get_rsa_padding_overhead pad - 16 < src.length →
          ∃ c, crypto_pk_public_hybrid_encrypt r ks symkey src pad force = some c
            ∧ c.length = r.pkeylen
                + (src.length - (r.pkeylen - crypto_get_rsa_padding_overhead pad - 16)))) := by
  intro r ks symkey src pad force hr hk hov
  refine ⟨?_, ?_, ?_⟩
  · intro h
    simp only [crypto_pk_public_hybrid_encrypt]
    rw [if_pos h]
  · intro h1 hf hfit
    simp only [crypto_pk_public_hybrid_encrypt]
    rw [if_neg h1, if_pos ⟨hf, hfit⟩]
  · intro hbr hno hlen
    obtain ⟨rc, _, hrclen, henc⟩ :=
      hybrid_encrypt_long r ks symkey src pad force hr hk hov hno hbr hlen
    refine ⟨_, henc, ?_⟩
    rw [List.length_append, hrclen, aes_crypt_length, List.length_drop]

/-- C2's unconditional "otherwise" clause is false: with a valid
128-byte model keypair, PKCS1 padding, `force` set and an empty
message, the claimed output length would be `128 + (0 - 101 + 16)`,
but the encryptor's `symlen` computation underflows (the `memcpy`
reads out of bounds) and nothing is returned. -/
theorem claim_C2_cex :
    GoodRSA (toyRSA 128) ∧
    crypto_pk_public_hybrid_encrypt (toyRSA 128) toyKS (List.replicate 16 7)
      [] Padding.pkcs1 true = none :=
  ⟨toyRSA_good 128 (by decide), by decide⟩

/-- Witness for `claim_C2`: the spec's own long-branch example — key
size 128, PKCS1 (overhead 11), message length 500 — yields output
length `128 + (500 - (128 - 11 - 16)) = 527`. -/
theorem claim_C2_witness :
    (List.replicate 16 (7 : Nat)).length = 16 ∧
    crypto_get_rsa_padding_overhead Padding.pkcs1 + 16 ≤ (toyRSA 128).pkeylen ∧
    (∃ c, crypto_pk_public_hybrid_encrypt (toyRSA 128) toyKS (List.replicate 16 7)
        (List.replicate 500 1) Padding.pkcs1 false = some c
      ∧ c.length = (toyRSA 128).pkeylen
          + ((List.replicate 500 (1 : Nat)).length
            - ((toyRSA 128).pkeylen - crypto_get_rsa_padding_overhead Padding.pkcs1 - 16))) :=
  ⟨by decide, by decide,
   (claim_C2 (toyRSA 128) toyKS (List.replicate 16 7) (List.replicate 500 1)
      Padding.pkcs1 false (toyRSA_good 128 (by decide)) (by decide) (by decide)).2.2
     (by decide) (by decide) (by decide)⟩

end Crypto
